import Mathlib

/-!
Verification of the toy blockchain in `blockchain/toy_blockchain.go`.

The Go source is shallowly embedded:
* Go strings are Lean `String`s; `[]byte` conversion is UTF-8 (`utf8Bytes`).
* `fmt.Sprintf` with the verb `v` is embedded field by field: a string renders
  as itself, an `int`/`int64` as its decimal form, a slice of structs as
  `[e1 e2 ...]` with each struct as a brace-delimited, space-separated list
  of its field values (Go `fmt` semantics for unnamed `v`-rendering).
* `float64` transaction amounts are never computed with in the source — they
  are only constructed and rendered by `fmt` — so an amount is modelled by
  its Go rendering (`GoFloat`).
* `crypto/sha256` plus the hex rendering `fmt.Sprintf` with verb `x` is
  embedded as an executable SHA-256 over byte lists (`SHA256go`).
* `Block.mine` is an unbounded search in Go; it is embedded with explicit
  fuel (`mineFuel`), returning `none` when the fuel is exhausted, so every
  terminating Go run corresponds to a `some` result for sufficient fuel.
* Go `int` nonces and `int` difficulty are modelled as `Nat` (the nonce
  starts at 0 and is only incremented; a negative difficulty makes
  `strings.Repeat` panic in Go, and every claim assumes difficulty ≥ 0).
-/

set_option autoImplicit false

namespace Toy

/-- A `float64` transaction amount, modelled by its Go `fmt` rendering with
verb `v`: the source never computes with an amount, it only stores it and
renders it. -/
structure GoFloat where
  render : String
deriving DecidableEq, Repr

/-- Go struct `Transaction`. -/
structure Transaction where
  payer : String
  payee : String
  amt : GoFloat
deriving DecidableEq, Repr

/-- Go struct `Block`. -/
structure Block where
  data : List Transaction
  prevHash : String
  unixTs : Int
  nonce : Nat
  hash : String
deriving DecidableEq, Repr

/-- Go struct `BlockChain`. -/
structure BlockChain where
  current : Option Block
  chain : List Block
  difficulty : Nat
deriving DecidableEq, Repr

/-- Go constant `MAX_TXNS_PER_BLOCK`. -/
def MAX_TXNS_PER_BLOCK : Nat := 5

/-- Go `fmt` `v`-rendering of one `Transaction` struct:
an opening brace, the space-separated field values, a closing brace. -/
def renderTxn (t : Transaction) : String :=
  "\x7b" ++ t.payer ++ " " ++ t.payee ++ " " ++ t.amt.render ++ "\x7d"

/-- Go `fmt` `v`-rendering of the slice `[]Transaction`. -/
def renderTxns (ts : List Transaction) : String :=
  "[" ++ String.intercalate " " (ts.map renderTxn) ++ "]"

/-- UTF-8 encoding of one scalar value, as byte values. -/
def utf8Char (c : Char) : List Nat :=
  let n := c.toNat
  if n < 128 then [n]
  else if n < 2048 then [192 + n / 64, 128 + n % 64]
  else if n < 65536 then [224 + n / 4096, 128 + (n / 64) % 64, 128 + n % 64]
  else [240 + n / 262144, 128 + (n / 4096) % 64, 128 + (n / 64) % 64, 128 + n % 64]

/-- Go `[]byte(s)`: the UTF-8 bytes of a string. -/
def utf8Bytes (s : String) : List Nat :=
  (s.data.map utf8Char).flatten

/-- Boolean check that `pre` is an initial segment of `s`
(Go `strings.HasPrefix s pre`). -/
def strBeginsWith (s pre : String) : Bool :=
  go pre.data s.data
where
  go : List Char → List Char → Bool
    | [], _ => true
    | _ :: _, [] => false
    | a :: as, b :: bs => a == b && go as bs

/-- Go `strings.Repeat "0" d`: the proof-of-work target. -/
def powTarget (d : Nat) : String :=
  ⟨List.replicate d '0'⟩

/- ### SHA-256, executable, over byte lists -/

/-- Truncation to a 32-bit word. -/
def w32 (n : Nat) : Nat := n % 4294967296

/-- Right rotation of a 32-bit word by `k` (for `0 < k < 32`). -/
def rotr (k x : Nat) : Nat := w32 ((x >>> k) ||| (x <<< (32 - k)))

/-- SHA-256 `Ch`. -/
def shaCh (x y z : Nat) : Nat := (x &&& y) ^^^ ((x ^^^ 4294967295) &&& z)

/-- SHA-256 `Maj`. -/
def shaMaj (x y z : Nat) : Nat := (x &&& y) ^^^ (x &&& z) ^^^ (y &&& z)

/-- SHA-256 big sigma 0. -/
def bsig0 (x : Nat) : Nat := rotr 2 x ^^^ rotr 13 x ^^^ rotr 22 x

/-- SHA-256 big sigma 1. -/
def bsig1 (x : Nat) : Nat := rotr 6 x ^^^ rotr 11 x ^^^ rotr 25 x

/-- SHA-256 small sigma 0. -/
def ssig0 (x : Nat) : Nat := rotr 7 x ^^^ rotr 18 x ^^^ (x >>> 3)

/-- SHA-256 small sigma 1. -/
def ssig1 (x : Nat) : Nat := rotr 17 x ^^^ rotr 19 x ^^^ (x >>> 10)

/-- The 64 SHA-256 round constants. -/
def shaK : List Nat :=
  [1116352408, 1899447441, 3049323471, 3921009573, 961987163, 1508970993,
   2453635748, 2870763221, 3624381080, 310598401, 607225278, 1426881987,
   1925078388, 2162078206, 2614888103, 3248222580, 3835390401, 4022224774,
   264347078, 604807628, 770255983, 1249150122, 1555081692, 1996064986,
   2554220882, 2821834349, 2952996808, 3210313671, 3336571891, 3584528711,
   113926993, 338241895, 666307205, 773529912, 1294757372, 1396182291,
   1695183700, 1986661051, 2177026350, 2456956037, 2730485921, 2820302411,
   3259730800, 3345764771, 3516065817, 3600352804, 4094571909, 275423344,
   430227734, 506948616, 659060556, 883997877, 958139571, 1322822218,
   1537002063, 1747873779, 1955562222, 2024104815, 2227730452, 2361852424,
   2428436474, 2756734187, 3204031479, 3329325298]

/-- The SHA-256 initial hash value. -/
def shaH0 : List Nat :=
  [1779033703, 3144134277, 1013904242, 2773480762,
   1359893119, 2600822924, 528734635, 1541459225]

/-- Big-endian 64-bit byte rendering of a length in bits. -/
def be64 (n : Nat) : List Nat :=
  [(n >>> 56) % 256, (n >>> 48) % 256, (n >>> 40) % 256, (n >>> 32) % 256,
   (n >>> 24) % 256, (n >>> 16) % 256, (n >>> 8) % 256, n % 256]

/-- SHA-256 padding: append `0x80`, zero bytes to 56 mod 64, then the
bit length as a big-endian 64-bit quantity. -/
def sha256Pad (m : List Nat) : List Nat :=
  m ++ [128] ++ List.replicate ((119 - m.length % 64) % 64) 0 ++ be64 (8 * m.length)

/-- Group bytes four at a time into big-endian 32-bit words. -/
def toWords : List Nat → List Nat
  | a :: b :: c :: d :: rest => (((a * 256 + b) * 256 + c) * 256 + d) :: toWords rest
  | _ => []

/-- Extend the 16-word message schedule by `k` further words. -/
def extendW (ws : List Nat) : Nat → List Nat
  | 0 => ws
  | k + 1 =>
      let m := ws.length
      extendW (ws ++ [w32 (ssig1 (ws.getD (m - 2) 0) + ws.getD (m - 7) 0 +
        ssig0 (ws.getD (m - 15) 0) + ws.getD (m - 16) 0)]) k

/-- One SHA-256 compression round on the eight-word working state. -/
def shaRound (st : List Nat) (kw : Nat × Nat) : List Nat :=
  match st with
  | [a, b, c, d, e, f, g, h] =>
      let t1 := w32 (h + bsig1 e + shaCh e f g + kw.1 + kw.2)
      let t2 := w32 (bsig0 a + shaMaj a b c)
      [w32 (t1 + t2), a, b, c, w32 (d + t1), e, f, g]
  | _ => st

/-- SHA-256 compression of one 16-word chunk into the running hash value. -/
def sha256Compress (h : List Nat) (chunk : List Nat) : List Nat :=
  let ws := extendW chunk 48
  let st := (shaK.zip ws).foldl shaRound h
  List.zipWith (fun x y => w32 (x + y)) h st

/-- Fold `sha256Compress` over `n` chunks of 64 bytes. -/
def processChunks : Nat → List Nat → List Nat → List Nat
  | 0, h, _ => h
  | n + 1, h, bytes => processChunks n (sha256Compress h (toWords (bytes.take 64))) (bytes.drop 64)

/-- The big-endian bytes of one 32-bit word. -/
def wordBytes (n : Nat) : List Nat :=
  [(n >>> 24) % 256, (n >>> 16) % 256, (n >>> 8) % 256, n % 256]

/-- SHA-256 digest of a byte list, as 32 bytes. -/
def sha256Bytes (m : List Nat) : List Nat :=
  let p := sha256Pad m
  ((processChunks (p.length / 64) shaH0 p).map wordBytes).flatten

/-- One lowercase hexadecimal digit. -/
def hexDigit (n : Nat) : Char :=
  if n < 10 then Char.ofNat (48 + n) else Char.ofNat (87 + n)

/-- Lowercase hexadecimal rendering of a byte list
(Go `fmt.Sprintf` with verb `x` on a `[32]byte`). -/
def bytesHex (bs : List Nat) : String :=
  ⟨(bs.map fun b => [hexDigit (b / 16), hexDigit (b % 16)]).flatten⟩

/-- Go function `SHA256`: SHA-256 of a byte slice, rendered as 64 lowercase
hex characters. -/
def SHA256go (packedBytes : List Nat) : String :=
  bytesHex (sha256Bytes packedBytes)

/- ### The blockchain operations -/

/-- The bytes `fixedBlockBytes` computed once at the top of `Block.mine`:
the `v`-renderings of the transaction slice, the previous hash and the
timestamp, concatenated and converted to bytes. -/
def fixedBlockBytes (b : Block) : List Nat :=
  utf8Bytes (renderTxns b.data ++ b.prevHash ++ Int.repr b.unixTs)

/-- The digest `Block.mine` computes for a candidate nonce `n`:
`SHA256(append(fixedBlockBytes, []byte(Sprintf n)...))`. -/
def mineDigest (b : Block) (n : Nat) : String :=
  SHA256go (fixedBlockBytes b ++ utf8Bytes (Nat.repr n))

/-- The body of one `Block.mine` loop iteration: increment the nonce and
overwrite the hash with the digest of the fixed bytes plus the rendered
new nonce. -/
def mineNext (b : Block) : Block :=
  { b with nonce := b.nonce + 1, hash := mineDigest b (b.nonce + 1) }

/-- Go method `Block.mine`, with explicit fuel bounding the number of loop
iterations. Each Go iteration runs `mineNext`; the loop stops as soon as
the stored hash begins with `difficulty` many `'0'` characters.
A terminating Go run is exactly a `some` result for sufficient fuel. -/
def mineFuel (difficulty : Nat) : Nat → Block → Option Block
  | 0, b => if strBeginsWith b.hash (powTarget difficulty) then some b else none
  | f + 1, b =>
      if strBeginsWith b.hash (powTarget difficulty) then some b
      else mineFuel difficulty f (mineNext b)

/-- Go function `CreateBlockChain`: build the genesis block (zero-valued
transaction slice, previous hash, nonce and hash; the supplied creation
time), mine it, and wrap it as the chain's only committed block. -/
def CreateBlockChain (difficulty : Nat) (now : Int) (fuel : Nat) : Option BlockChain :=
  (mineFuel difficulty fuel
      { data := [], prevHash := "", unixTs := now, nonce := 0, hash := "" }).map
    fun genesisBlock =>
      { current := none, chain := [genesisBlock], difficulty := difficulty }

/-- Go method `BlockChain.lastBlock`: the last committed block's hash.
The Go code indexes `chain[len(chain)-1]`, which panics on an empty chain;
that state is unreachable (the genesis block always exists), and the
default is never consulted in any reachable state. -/
def lastHash (bc : BlockChain) : String :=
  match bc.chain.getLast? with
  | some b => b.hash
  | none => ""

/-- Go method `BlockChain.newBlock`: open a fresh block holding exactly the
given transaction, linked to the last committed block's hash, with a fresh
timestamp, zero nonce and empty hash. -/
def newBlock (bc : BlockChain) (txn : Transaction) (now : Int) : BlockChain :=
  let b : Block :=
    { data := [txn], prevHash := lastHash bc, unixTs := now, nonce := 0, hash := "" }
  { bc with current := some b }

/-- Go method `BlockChain.CommitBlock`: if an open block exists, mine it,
append it to the committed sequence and clear the open slot; otherwise do
nothing. -/
def CommitBlock (bc : BlockChain) (fuel : Nat) : Option BlockChain :=
  match bc.current with
  | none => some bc
  | some cur =>
      (mineFuel bc.difficulty fuel cur).map fun mined =>
        { bc with current := none, chain := bc.chain ++ [mined] }

/-- Go method `BlockChain.AddTxn`: if there is no open block, or the open
block is full, first commit (a no-op when no open block exists) and then
open a fresh block with the new transaction; otherwise append the
transaction to the open block. -/
def AddTxn (bc : BlockChain) (txn : Transaction) (now : Int) (fuel : Nat) :
    Option BlockChain :=
  match bc.current with
  | none => (CommitBlock bc fuel).map fun bc2 => newBlock bc2 txn now
  | some cur =>
      if MAX_TXNS_PER_BLOCK ≤ cur.data.length then
        (CommitBlock bc fuel).map fun bc2 => newBlock bc2 txn now
      else
        some ({ bc with current := some ({ cur with data := cur.data ++ [txn] }) })

/-- One externally visible mutation of a chain: an `AddTxn` call or a
`CommitBlock` call that ran to completion. -/
inductive Step : BlockChain → BlockChain → Prop where
  | add (bc : BlockChain) (txn : Transaction) (now : Int) (fuel : Nat)
      (bc' : BlockChain) (h : AddTxn bc txn now fuel = some bc') : Step bc bc'
  | commit (bc : BlockChain) (fuel : Nat) (bc' : BlockChain)
      (h : CommitBlock bc fuel = some bc') : Step bc bc'

/-- The chain states reachable from `CreateBlockChain` by completed
`AddTxn` and `CommitBlock` calls. -/
inductive Reachable : BlockChain → Prop where
  | create (difficulty : Nat) (now : Int) (fuel : Nat) (bc : BlockChain)
      (h : CreateBlockChain difficulty now fuel = some bc) : Reachable bc
  | step (bc bc' : BlockChain) (hr : Reachable bc) (hs : Step bc bc') : Reachable bc'

/-- Recomputation of a block's digest from its stored fields and nonce,
exactly as `Block.mine` would compute it. -/
def recomputeHash (b : Block) : String :=
  mineDigest b b.nonce

/- ### Specification of the mining loop -/

/-- What one completed `Block.mine` run guarantees, relating the block `b`
the loop started from to the block `b'` it left behind. -/
structure MineSpec (d : Nat) (b b' : Block) : Prop where
  data_eq : b'.data = b.data
  prev_eq : b'.prevHash = b.prevHash
  ts_eq : b'.unixTs = b.unixTs
  pow : strBeginsWith b'.hash (powTarget d) = true
  nonce_le : b.nonce ≤ b'.nonce
  same : b'.nonce = b.nonce → b' = b
  mined : b.nonce < b'.nonce → b'.hash = mineDigest b b'.nonce
  least : ∀ n, b.nonce < n → n < b'.nonce →
    strBeginsWith (mineDigest b n) (powTarget d) = false

theorem mineDigest_mineNext (b : Block) (n : Nat) :
    mineDigest (mineNext b) n = mineDigest b n := rfl

theorem mineNext_nonce (b : Block) : (mineNext b).nonce = b.nonce + 1 := rfl

theorem mineNext_hash (b : Block) : (mineNext b).hash = mineDigest b (b.nonce + 1) := rfl

theorem mineFuel_of_pow {d : Nat} (fuel : Nat) {b : Block}
    (h : strBeginsWith b.hash (powTarget d) = true) :
    mineFuel d fuel b = some b := by
  cases fuel <;> simp [mineFuel, h]

theorem mineFuel_mineSpec (d : Nat) : ∀ (fuel : Nat) (b b' : Block),
    mineFuel d fuel b = some b' → MineSpec d b b' := by
  intro fuel
  induction fuel with
  | zero =>
    intro b b' h
    by_cases hp : strBeginsWith b.hash (powTarget d) = true
    · simp [mineFuel, hp] at h
      subst h
      exact ⟨rfl, rfl, rfl, hp, le_refl _, fun _ => rfl, fun hlt => absurd hlt (lt_irrefl _),
        fun n h1 h2 => absurd (h1.trans h2) (lt_irrefl _)⟩
    · simp [mineFuel, hp] at h
  | succ f ih =>
    intro b b' h
    by_cases hp : strBeginsWith b.hash (powTarget d) = true
    · rw [mineFuel, if_pos hp] at h
      injection h with h
      subst h
      exact ⟨rfl, rfl, rfl, hp, le_refl _, fun _ => rfl, fun hlt => absurd hlt (lt_irrefl _),
        fun n h1 h2 => absurd (h1.trans h2) (lt_irrefl _)⟩
    · rw [mineFuel, if_neg hp] at h
      have s := ih _ _ h
      have hle : b.nonce + 1 ≤ b'.nonce := by
        have := s.nonce_le
        rwa [mineNext_nonce] at this
      refine ⟨s.data_eq, s.prev_eq, s.ts_eq, s.pow, ?_, ?_, ?_, ?_⟩
      · omega
      · intro heq
        omega
      · intro _
        rcases Nat.eq_or_lt_of_le hle with heq | hlt
        · have hb := s.same (by rw [mineNext_nonce]; exact heq.symm)
          rw [hb, mineNext_hash, mineNext_nonce]
        · have := s.mined (by rw [mineNext_nonce]; exact hlt)
          rwa [mineDigest_mineNext] at this
      · intro n h1 h2
        rcases Nat.lt_or_ge (b.nonce + 1) n with hgt | hge
        · have := s.least n (by rw [mineNext_nonce]; exact hgt) h2
          rwa [mineDigest_mineNext] at this
        · have hn : n = b.nonce + 1 := by omega
          subst hn
          by_contra hcon
          have hcon' : strBeginsWith (mineDigest b (b.nonce + 1)) (powTarget d) = true := by
            revert hcon
            cases strBeginsWith (mineDigest b (b.nonce + 1)) (powTarget d) <;> simp
          have heq2 : mineFuel d f (mineNext b) = some (mineNext b) :=
            mineFuel_of_pow f (by rw [mineNext_hash]; exact hcon')
          rw [heq2] at h
          injection h with h
          rw [← h, mineNext_nonce] at h2
          omega

theorem mineFuel_det (d : Nat) : ∀ (f1 f2 : Nat) (b b1 b2 : Block),
    mineFuel d f1 b = some b1 → mineFuel d f2 b = some b2 → b1 = b2 := by
  intro f1
  induction f1 with
  | zero =>
    intro f2 b b1 b2 h1 h2
    by_cases hp : strBeginsWith b.hash (powTarget d) = true
    · simp [mineFuel, hp] at h1
      rw [mineFuel_of_pow f2 hp] at h2
      injection h2 with h2
      rw [← h1, ← h2]
    · simp [mineFuel, hp] at h1
  | succ f ih =>
    intro f2 b b1 b2 h1 h2
    by_cases hp : strBeginsWith b.hash (powTarget d) = true
    · rw [mineFuel_of_pow (f + 1) hp] at h1
      rw [mineFuel_of_pow f2 hp] at h2
      injection h1 with h1
      injection h2 with h2
      rw [← h1, ← h2]
    · rw [mineFuel, if_neg hp] at h1
      cases f2 with
      | zero => simp [mineFuel, hp] at h2
      | succ g =>
        rw [mineFuel, if_neg hp] at h2
        exact ih g _ b1 b2 h1 h2

/-- The proof-of-work target for a positive difficulty is never an initial
segment of the empty string. -/
theorem pow_empty_false (d : Nat) (hd : 1 ≤ d) :
    strBeginsWith "" (powTarget d) = false := by
  cases d with
  | zero => omega
  | succ n => rfl

theorem mineDigest_congr {a b : Block} (hd : a.data = b.data)
    (hp : a.prevHash = b.prevHash) (ht : a.unixTs = b.unixTs) (n : Nat) :
    mineDigest a n = mineDigest b n := by
  unfold mineDigest fixedBlockBytes
  rw [hd, hp, ht]

/-- Mining a block whose hash is still empty at a positive difficulty runs
the loop at least once and leaves a hash that recomputes from the mined
block's own fields and nonce. -/
theorem MineSpec.fresh {d : Nat} {b b' : Block} (s : MineSpec d b b')
    (hh : b.hash = "") (hd : 1 ≤ d) :
    b.nonce < b'.nonce ∧ b'.hash = recomputeHash b' := by
  have hne : b'.nonce ≠ b.nonce := by
    intro heq
    have hb := s.same heq
    have hpow := s.pow
    rw [hb, hh, pow_empty_false d hd] at hpow
    exact Bool.false_ne_true hpow
  have hlt : b.nonce < b'.nonce := lt_of_le_of_ne s.nonce_le (Ne.symm hne)
  refine ⟨hlt, ?_⟩
  have hm := s.mined hlt
  rw [hm]
  exact mineDigest_congr s.data_eq.symm s.prev_eq.symm s.ts_eq.symm b'.nonce

/- ### The chain invariant -/

/-- Hash linkage between two adjacent committed blocks. -/
def Linked (a b : Block) : Prop := b.prevHash = a.hash

/-- The invariant maintained by every chain operation. -/
structure Inv (bc : BlockChain) : Prop where
  ne : bc.chain ≠ []
  pow : ∀ b ∈ bc.chain, strBeginsWith b.hash (powTarget bc.difficulty) = true
  recompute : ∀ b ∈ bc.chain, 1 ≤ bc.difficulty → recomputeHash b = b.hash
  link : List.Chain' Linked bc.chain
  headEmpty : ∀ g ∈ bc.chain.head?, g.data = []
  tailSized : ∀ b ∈ bc.chain.tail,
    1 ≤ b.data.length ∧ b.data.length ≤ MAX_TXNS_PER_BLOCK
  cur : ∀ c ∈ bc.current, c.prevHash = lastHash bc ∧ c.hash = "" ∧
    1 ≤ c.data.length ∧ c.data.length ≤ MAX_TXNS_PER_BLOCK

theorem Inv.create {d : Nat} {now : Int} {fuel : Nat} {bc : BlockChain}
    (h : CreateBlockChain d now fuel = some bc) : Inv bc := by
  unfold CreateBlockChain at h
  cases hm : mineFuel d fuel { data := [], prevHash := "", unixTs := now, nonce := 0, hash := "" }
    with
  | none => rw [hm] at h; simp at h
  | some g =>
    rw [hm] at h
    simp only [Option.map_some', Option.some_inj] at h
    subst h
    have s := mineFuel_mineSpec d fuel _ g hm
    refine ⟨by simp, ?_, ?_, ?_, ?_, ?_, ?_⟩
    · intro b hb
      simp at hb
      subst hb
      exact s.pow
    · intro b hb hd
      simp at hb
      subst hb
      exact ((s.fresh rfl hd).2).symm
    · exact List.chain'_singleton g
    · intro g' hg'
      simp at hg'
      subst hg'
      exact s.data_eq
    · intro b hb
      simp at hb
    · intro c hc
      simp at hc

theorem lastHash_eq_getLast {bc : BlockChain} {b : Block}
    (h : bc.chain.getLast? = some b) : lastHash bc = b.hash := by
  unfold lastHash
  rw [h]

theorem Inv.newBlock {bc : BlockChain} (inv : Inv bc) (txn : Transaction) (now : Int) :
    Inv (newBlock bc txn now) := by
  have hchain : (Toy.newBlock bc txn now).chain = bc.chain := rfl
  have hdiff : (Toy.newBlock bc txn now).difficulty = bc.difficulty := rfl
  have hlast : lastHash (Toy.newBlock bc txn now) = lastHash bc := rfl
  refine ⟨?_, ?_, ?_, ?_, ?_, ?_, ?_⟩
  · rw [hchain]; exact inv.ne
  · rw [hchain, hdiff]; exact inv.pow
  · rw [hchain, hdiff]; exact inv.recompute
  · rw [hchain]; exact inv.link
  · rw [hchain]; exact inv.headEmpty
  · rw [hchain]; exact inv.tailSized
  · intro c hc
    simp only [Toy.newBlock, Option.mem_def, Option.some_inj] at hc
    subst hc
    exact ⟨hlast, rfl, by simp, by simp [MAX_TXNS_PER_BLOCK]⟩

theorem Inv.commit {bc bc' : BlockChain} {fuel : Nat} (inv : Inv bc)
    (h : CommitBlock bc fuel = some bc') : Inv bc' := by
  cases hc : bc.current with
  | none =>
    simp only [CommitBlock, hc, Option.some_inj] at h
    subst h
    exact inv
  | some cur =>
    simp only [CommitBlock, hc] at h
    cases hm : mineFuel bc.difficulty fuel cur with
    | none => rw [hm] at h; simp at h
    | some m =>
      rw [hm] at h
      simp only [Option.map_some', Option.some_inj] at h
      subst h
      have s := mineFuel_mineSpec bc.difficulty fuel cur m hm
      obtain ⟨hprev, hhash, hlen1, hlen2⟩ := inv.cur cur (by rw [hc]; rfl)
      obtain ⟨g, rest, hgr⟩ : ∃ g rest, bc.chain = g :: rest := by
        cases hx : bc.chain with
        | nil => exact absurd hx inv.ne
        | cons g rest => exact ⟨g, rest, rfl⟩
      refine ⟨by simp, ?_, ?_, ?_, ?_, ?_, ?_⟩
      · intro b hb
        simp only at hb
        rw [List.mem_append] at hb
        rcases hb with hb | hb
        · exact inv.pow b hb
        · simp at hb
          subst hb
          exact s.pow
      · intro b hb hd
        simp only at hb
        rw [List.mem_append] at hb
        rcases hb with hb | hb
        · exact inv.recompute b hb hd
        · simp at hb
          subst hb
          exact ((s.fresh hhash hd).2).symm
      · simp only
        rw [List.chain'_append]
        refine ⟨inv.link, List.chain'_singleton m, ?_⟩
        intro x hx y hy
        simp at hy
        subst hy
        have hgl : bc.chain.getLast? = some x := hx
        show m.prevHash = x.hash
        rw [s.prev_eq, hprev, lastHash_eq_getLast hgl]
      · intro g' hg'
        simp only [Option.mem_def, hgr, List.cons_append, List.head?_cons,
          Option.some_inj] at hg'
        subst hg'
        exact inv.headEmpty g (by rw [hgr]; rfl)
      · intro b hb
        simp only [hgr, List.cons_append, List.tail_cons] at hb
        rw [List.mem_append] at hb
        rcases hb with hb | hb
        · exact inv.tailSized b (by rw [hgr]; exact hb)
        · simp at hb
          subst hb
          rw [s.data_eq]
          exact ⟨hlen1, hlen2⟩
      · intro c hc
        simp at hc

theorem Inv.addTxn {bc bc' : BlockChain} {txn : Transaction} {now : Int} {fuel : Nat}
    (inv : Inv bc) (h : AddTxn bc txn now fuel = some bc') : Inv bc' := by
  cases hc : bc.current with
  | none =>
    simp only [AddTxn, hc] at h
    cases hcb : CommitBlock bc fuel with
    | none => rw [hcb] at h; simp at h
    | some bc2 =>
      rw [hcb] at h
      simp only [Option.map_some', Option.some_inj] at h
      subst h
      exact (inv.commit hcb).newBlock txn now
  | some cur =>
    simp only [AddTxn, hc] at h
    by_cases hfull : MAX_TXNS_PER_BLOCK ≤ cur.data.length
    · rw [if_pos hfull] at h
      cases hcb : CommitBlock bc fuel with
      | none => rw [hcb] at h; simp at h
      | some bc2 =>
        rw [hcb] at h
        simp only [Option.map_some', Option.some_inj] at h
        subst h
        exact (inv.commit hcb).newBlock txn now
    · rw [if_neg hfull] at h
      simp only [Option.some_inj] at h
      subst h
      obtain ⟨hprev, hhash, hlen1, hlen2⟩ := inv.cur cur (by rw [hc]; rfl)
      refine ⟨inv.ne, inv.pow, inv.recompute, inv.link, inv.headEmpty, inv.tailSized, ?_⟩
      · intro c hcm
        simp only [Option.mem_def, Option.some_inj] at hcm
        subst hcm
        refine ⟨hprev, hhash, ?_, ?_⟩
        · simp only [List.length_append, List.length_cons, List.length_nil]
          omega
        · simp only [List.length_append, List.length_cons, List.length_nil]
          unfold MAX_TXNS_PER_BLOCK at hfull ⊢
          omega

/-- Every reachable chain state satisfies the invariant. -/
theorem Reachable.inv {bc : BlockChain} (h : Reachable bc) : Inv bc := by
  induction h with
  | create d now fuel bc h => exact Inv.create h
  | step bc bc' hr hs ih =>
    cases hs with
    | add x y z w h => exact ih.addTxn h
    | commit x y h => exact ih.commit h

/- ### Helper equations for the chain operations -/

theorem commitBlock_none {bc : BlockChain} (fuel : Nat) (h : bc.current = none) :
    CommitBlock bc fuel = some bc := by
  simp [CommitBlock, h]

theorem addTxn_of_none {bc : BlockChain} (txn : Transaction) (now : Int) (fuel : Nat)
    (h : bc.current = none) :
    AddTxn bc txn now fuel = some (newBlock bc txn now) := by
  simp [AddTxn, h, commitBlock_none fuel h]

theorem addTxn_append {bc : BlockChain} {cur : Block} (txn : Transaction) (now : Int)
    (fuel : Nat) (hc : bc.current = some cur)
    (hlen : cur.data.length < MAX_TXNS_PER_BLOCK) :
    AddTxn bc txn now fuel =
      some { bc with current := some ({ cur with data := cur.data ++ [txn] }) } := by
  simp only [AddTxn, hc]
  rw [if_neg (by omega)]

theorem addTxn_full {bc : BlockChain} {cur : Block} (txn : Transaction) (now : Int)
    (fuel : Nat) (hc : bc.current = some cur)
    (hlen : MAX_TXNS_PER_BLOCK ≤ cur.data.length) :
    AddTxn bc txn now fuel = (CommitBlock bc fuel).map fun bc2 => newBlock bc2 txn now := by
  simp only [AddTxn, hc]
  rw [if_pos hlen]

theorem commitBlock_some {bc : BlockChain} {cur : Block} {fuel : Nat} {bc' : BlockChain}
    (hc : bc.current = some cur) (h : CommitBlock bc fuel = some bc') :
    ∃ m, mineFuel bc.difficulty fuel cur = some m ∧
      bc' = { bc with current := none, chain := bc.chain ++ [m] } := by
  simp only [CommitBlock, hc] at h
  cases hm : mineFuel bc.difficulty fuel cur with
  | none => rw [hm] at h; simp at h
  | some m =>
    rw [hm] at h
    simp only [Option.map_some', Option.some_inj] at h
    exact ⟨m, rfl, h.symm⟩

theorem createBlockChain_shape {d : Nat} {now : Int} {fuel : Nat} {bc : BlockChain}
    (h : CreateBlockChain d now fuel = some bc) :
    ∃ g, mineFuel d fuel { data := [], prevHash := "", unixTs := now, nonce := 0, hash := "" }
        = some g ∧ bc = { current := none, chain := [g], difficulty := d } := by
  unfold CreateBlockChain at h
  cases hm : mineFuel d fuel { data := [], prevHash := "", unixTs := now, nonce := 0, hash := "" }
    with
  | none => rw [hm] at h; simp at h
  | some g =>
    rw [hm] at h
    simp only [Option.map_some', Option.some_inj] at h
    exact ⟨g, rfl, h.symm⟩

/- ### The claims -/

/-- Claim C1, as stated, fails at difficulty 0: `CreateBlockChain 0` seals a
genesis block whose stored hash is the empty string (the mining loop runs
zero iterations), and recomputing the SHA-256 digest over its serialized
transactions, previous hash, timestamp and nonce does not reproduce that
stored hash. -/
theorem C1_counterexample :
    CreateBlockChain 0 0 0 = some ⟨none, [⟨[], "", 0, 0, ""⟩], 0⟩ ∧
    recomputeHash ⟨[], "", 0, 0, ""⟩ ≠ (⟨[], "", 0, 0, ""⟩ : Block).hash := by
  refine ⟨by decide, by decide⟩

/-- Claim C1 (amended): for every chain reachable from `CreateBlockChain` by
`AddTxn` and `CommitBlock` calls whose difficulty is at least 1, every block
in the sealed sequence stores a hash that is reproduced by recomputing
SHA-256 over its serialized transactions, previous hash, timestamp and
nonce, and that hash has at least `difficulty` leading `'0'` characters. -/
theorem C1_amended {bc : BlockChain} (hr : Reachable bc) (hd : 1 ≤ bc.difficulty) :
    ∀ b ∈ bc.chain, recomputeHash b = b.hash ∧
      strBeginsWith b.hash (powTarget bc.difficulty) = true :=
  fun b hb => ⟨hr.inv.recompute b hb hd, hr.inv.pow b hb⟩

/-- Claim C2: in every chain state reachable from `CreateBlockChain` by
`AddTxn` and `CommitBlock` calls, each sealed block beyond the first stores
as its previous hash exactly the hash of the sealed block before it. -/
theorem C2_linkage {bc : BlockChain} (hr : Reachable bc) :
    ∀ (i : Nat) (h : i + 1 < bc.chain.length),
      (bc.chain.get ⟨i + 1, h⟩).prevHash =
        (bc.chain.get ⟨i, Nat.lt_of_succ_lt h⟩).hash := by
  intro i h
  have hl := hr.inv.link
  rw [List.chain'_iff_get] at hl
  exact hl i (by omega)

/-- Claim C3: submitting six transactions (capacity 5 plus one) to a fresh
chain with no explicit commit yields exactly one sealed block beyond the
genesis block, holding the first five transactions in submission order,
while the open block holds only the sixth. -/
theorem C3_capacity (d : Nat) (now : Int) (f0 : Nat) (bc0 : BlockChain)
    (t1 t2 t3 t4 t5 t6 : Transaction) (n1 n2 n3 n4 n5 n6 : Int)
    (f1 f2 f3 f4 f5 f6 : Nat) (bc1 bc2 bc3 bc4 bc5 bc6 : BlockChain)
    (h0 : CreateBlockChain d now f0 = some bc0)
    (h1 : AddTxn bc0 t1 n1 f1 = some bc1)
    (h2 : AddTxn bc1 t2 n2 f2 = some bc2)
    (h3 : AddTxn bc2 t3 n3 f3 = some bc3)
    (h4 : AddTxn bc3 t4 n4 f4 = some bc4)
    (h5 : AddTxn bc4 t5 n5 f5 = some bc5)
    (h6 : AddTxn bc5 t6 n6 f6 = some bc6) :
    bc6.chain.map Block.data = [[], [t1, t2, t3, t4, t5]] ∧
    bc6.current.map Block.data = some [t6] := by
  obtain ⟨g, hg, hbc0⟩ := createBlockChain_shape h0
  have sg := mineFuel_mineSpec d f0 _ g hg
  subst hbc0
  rw [addTxn_of_none t1 n1 f1 rfl] at h1
  injection h1 with h1
  subst h1
  rw [addTxn_append t2 n2 f2 rfl (by simp [MAX_TXNS_PER_BLOCK])] at h2
  injection h2 with h2
  subst h2
  rw [addTxn_append t3 n3 f3 rfl (by simp [MAX_TXNS_PER_BLOCK])] at h3
  injection h3 with h3
  subst h3
  rw [addTxn_append t4 n4 f4 rfl (by simp [MAX_TXNS_PER_BLOCK])] at h4
  injection h4 with h4
  subst h4
  rw [addTxn_append t5 n5 f5 rfl (by simp [MAX_TXNS_PER_BLOCK])] at h5
  injection h5 with h5
  subst h5
  rw [addTxn_full t6 n6 f6 rfl (by simp [MAX_TXNS_PER_BLOCK])] at h6
  rw [Option.map_eq_some'] at h6
  obtain ⟨bcC, hC, hbc6⟩ := h6
  obtain ⟨m, hmine, hshape⟩ := commitBlock_some rfl hC
  subst hshape
  subst hbc6
  have sm := mineFuel_mineSpec _ _ _ m hmine
  have hmdata : m.data = [t1, t2, t3, t4, t5] := by
    rw [sm.data_eq]
    simp
  have hgdata : g.data = [] := sg.data_eq
  constructor
  · simp [Toy.newBlock, hmdata, hgdata]
  · simp [Toy.newBlock]

/-- Claim C4: a freshly created chain has no open block and exactly one
sealed block, whose transaction batch is empty, whose previous hash is the
empty string, and whose hash meets the proof-of-work target for the given
difficulty. -/
theorem C4_genesis (d : Nat) (now : Int) (fuel : Nat) (bc : BlockChain)
    (h : CreateBlockChain d now fuel = some bc) :
    bc.current = none ∧ ∃ g, bc.chain = [g] ∧ g.data = [] ∧ g.prevHash = "" ∧
      strBeginsWith g.hash (powTarget d) = true := by
  obtain ⟨g, hm, hbc⟩ := createBlockChain_shape h
  have s := mineFuel_mineSpec d fuel _ g hm
  subst hbc
  exact ⟨rfl, g, rfl, s.data_eq, s.prev_eq, s.pow⟩

/-- Claim C5, as stated, fails at difficulty 0: mining an unsealed block
(empty hash) at difficulty 0 succeeds immediately and returns the block
unchanged — its nonce is still the initial 0, so the loop body never ran
and no digest was computed, contradicting the claimed minimum of one
iteration with a strictly increased nonce. -/
theorem C5_counterexample :
    (⟨[], "", 0, 0, ""⟩ : Block).hash = "" ∧
    mineFuel 0 0 ⟨[], "", 0, 0, ""⟩ = some ⟨[], "", 0, 0, ""⟩ ∧
    (⟨[], "", 0, 0, ""⟩ : Block).nonce = 0 := by
  refine ⟨rfl, by decide, rfl⟩

/-- Claim C5 (amended): for positive difficulty, mining an unsealed block
(empty hash) runs the loop at least once — the final nonce strictly exceeds
the initial one — stops at the first nonce past the initial one whose
digest meets the target, and stores exactly that digest as the hash. -/
theorem C5_amended (b b' : Block) (d fuel : Nat) (hh : b.hash = "") (hd : 1 ≤ d)
    (hm : mineFuel d fuel b = some b') :
    b.nonce < b'.nonce ∧
    b'.hash = mineDigest b b'.nonce ∧
    strBeginsWith b'.hash (powTarget d) = true ∧
    ∀ n, b.nonce < n → n < b'.nonce →
      strBeginsWith (mineDigest b n) (powTarget d) = false := by
  have s := mineFuel_mineSpec d fuel b b' hm
  have hlt : b.nonce < b'.nonce := (s.fresh hh hd).1
  exact ⟨hlt, s.mined hlt, s.pow, s.least⟩

/-- Claim C6 names a requirement the code does not meet: the serialization
used by `mine` is not injective on `(transactions, previousHash, timestamp)`.
Two blocks that differ in previous hash and timestamp — prevHash `"1"` with
timestamp 1 versus prevHash `""` with timestamp 11 — serialize to the very
same bytes (the bytes of `"[]11"`). -/
theorem C6_collision :
    fixedBlockBytes ⟨[], "1", 1, 0, ""⟩ = fixedBlockBytes ⟨[], "", 11, 0, ""⟩ ∧
    (⟨[], "1", 1, 0, ""⟩ : Block).prevHash ≠ (⟨[], "", 11, 0, ""⟩ : Block).prevHash ∧
    (⟨[], "1", 1, 0, ""⟩ : Block).unixTs ≠ (⟨[], "", 11, 0, ""⟩ : Block).unixTs := by
  refine ⟨by decide, by decide, by decide⟩

/-- Claim C7: the proof-of-work search is deterministic. Two completed
`mine` runs over blocks with identical transaction content, previous hash
and timestamp, both starting from nonce 0 and empty hash, produce the same
final nonce and the same final hash, regardless of the fuel allowed. -/
theorem C7_deterministic (b c b1 b2 : Block) (d f1 f2 : Nat)
    (hdata : b.data = c.data) (hprev : b.prevHash = c.prevHash)
    (hts : b.unixTs = c.unixTs) (hbn : b.nonce = 0) (hcn : c.nonce = 0)
    (hbh : b.hash = "") (hch : c.hash = "")
    (h1 : mineFuel d f1 b = some b1) (h2 : mineFuel d f2 c = some b2) :
    b1.nonce = b2.nonce ∧ b1.hash = b2.hash := by
  have hbc : b = c := by
    cases b
    cases c
    simp only at hdata hprev hts hbn hcn hbh hch
    subst hdata
    subst hprev
    subst hts
    subst hbn
    subst hbh
    rw [hcn, hch]
  subst hbc
  have := mineFuel_det d f1 f2 b b1 b2 h1 h2
  rw [this]
  exact ⟨rfl, rfl⟩

/-- Claim C8: committing with no open block is a no-op — the whole chain
state (sealed sequence, open slot and difficulty) is returned unchanged —
and hence committing twice from such a state equals committing once. -/
theorem C8_commit_noop (bc : BlockChain) (fuel fuel2 : Nat) (h : bc.current = none) :
    CommitBlock bc fuel = some bc ∧
    (CommitBlock bc fuel).bind (fun bc2 => CommitBlock bc2 fuel2) = CommitBlock bc fuel := by
  have h1 : CommitBlock bc fuel = some bc := commitBlock_none fuel h
  rw [h1]
  exact ⟨rfl, by simp [commitBlock_none fuel2 h]⟩

/-- Claim C9: in every reachable chain state the open block, when present,
holds between 1 and `MAX_TXNS_PER_BLOCK` transactions; the sealed block at
index 0 (the genesis block) has an empty batch; and every sealed block at a
positive index holds between 1 and `MAX_TXNS_PER_BLOCK` transactions. -/
theorem C9_sizes {bc : BlockChain} (hr : Reachable bc) :
    (∀ c ∈ bc.current, 1 ≤ c.data.length ∧ c.data.length ≤ MAX_TXNS_PER_BLOCK) ∧
    ∀ (i : Nat) (h : i < bc.chain.length),
      (i = 0 → (bc.chain.get ⟨i, h⟩).data = []) ∧
      (i ≠ 0 → 1 ≤ (bc.chain.get ⟨i, h⟩).data.length ∧
        (bc.chain.get ⟨i, h⟩).data.length ≤ MAX_TXNS_PER_BLOCK) := by
  have inv := hr.inv
  refine ⟨fun c hc => ⟨(inv.cur c hc).2.2.1, (inv.cur c hc).2.2.2⟩, ?_⟩
  obtain ⟨g, rest, hgr⟩ : ∃ g rest, bc.chain = g :: rest := by
    cases hx : bc.chain with
    | nil => exact absurd hx inv.ne
    | cons g rest => exact ⟨g, rest, rfl⟩
  intro i h
  constructor
  · intro hi
    subst hi
    rw [List.get_of_eq hgr]
    exact inv.headEmpty g (by rw [hgr]; rfl)
  · intro hi
    obtain ⟨j, hj⟩ : ∃ j, i = j + 1 := by cases i with
      | zero => exact absurd rfl hi
      | succ j => exact ⟨j, rfl⟩
    subst hj
    have htail : bc.chain.tail = rest := by rw [hgr, List.tail_cons]
    have hlen : j + 1 < (g :: rest).length := by rw [hgr] at h; exact h
    have hmem : bc.chain.get ⟨j + 1, h⟩ ∈ bc.chain.tail := by
      have hget : bc.chain.get ⟨j + 1, h⟩ = rest.get ⟨j, Nat.lt_of_succ_lt_succ hlen⟩ :=
        (List.get_of_eq hgr ⟨j + 1, h⟩).trans rfl
      rw [hget, htail]
      exact List.get_mem rest j (Nat.lt_of_succ_lt_succ hlen)
    exact inv.tailSized _ hmem

/-- Claim C10: at difficulty 0 the mining loop body runs zero times on a
block whose hash is empty — the block comes back unchanged, nonce and hash
included — and correspondingly `CreateBlockChain 0` yields a chain whose
genesis block stores the empty hash and nonce 0. -/
theorem C10_difficulty0 (b : Block) (fuel : Nat) (now : Int) (fuel2 : Nat)
    (h : b.hash = "") :
    mineFuel 0 fuel b = some b ∧
    CreateBlockChain 0 now fuel2 = some ⟨none, [⟨[], "", now, 0, ""⟩], 0⟩ := by
  have hp : strBeginsWith b.hash (powTarget 0) = true := by rw [h]; rfl
  refine ⟨mineFuel_of_pow fuel hp, ?_⟩
  unfold CreateBlockChain
  rw [@mineFuel_of_pow 0 fuel2 ⟨[], "", now, 0, ""⟩ rfl]
  rfl

/- ### Known-answer checks for the SHA-256 embedding -/

set_option maxRecDepth 40000 in
/-- Known-answer test: SHA-256 of the empty byte sequence. -/
theorem sha256_kat_empty :
    SHA256go [] = "e3b0c44298fc1c149afbf4c8996fb92427ae41e4649b934ca495991b7852b855" := by
  decide

set_option maxRecDepth 40000 in
/-- Known-answer test: SHA-256 of the ASCII bytes of `abc`. -/
theorem sha256_kat_abc :
    SHA256go (utf8Bytes "abc") =
      "ba7816bf8f01cfea414140de5dae2223b00361a396177a9cb410ff61f20015ad" := by
  decide

/- ### Concrete states for the witnesses -/

/-- A genesis block of a difficulty-0 chain created at time 0. -/
def wG : Block := ⟨[], "", 0, 0, ""⟩

/-- A sample transaction. -/
def wT : Transaction := ⟨"a", "b", ⟨"1"⟩⟩

/-- The open block holding `wT`, opened at time 2 on the difficulty-0 chain. -/
def wB1 : Block := ⟨[wT], "", 2, 0, ""⟩

/-- The freshly created difficulty-0 chain. -/
def wBC0 : BlockChain := ⟨none, [wG], 0⟩

/-- The difficulty-0 chain after submitting `wT`. -/
def wBC1 : BlockChain := ⟨some wB1, [wG], 0⟩

/-- The difficulty-0 chain after also committing. -/
def wBC2 : BlockChain := ⟨none, [wG, wB1], 0⟩

theorem wBC1_reachable : Reachable wBC1 :=
  Reachable.step wBC0 wBC1
    (Reachable.create 0 0 0 wBC0 (by decide))
    (Step.add wBC0 wT 2 0 wBC1 (by decide))

theorem wBC2_reachable : Reachable wBC2 :=
  Reachable.step wBC1 wBC2 wBC1_reachable (Step.commit wBC1 0 wBC2 (by decide))

/-- The hash found by mining the genesis block of timestamp 9 at
difficulty 1: the very first candidate nonce, 1, already succeeds. -/
def c1Hash : String := "0cd0a1ec90e13916c4c67cffbb1469252c4f0fc3678bd6cffc4303b49dc60890"

/-- The difficulty-1 chain created at time 9. -/
def c1BC : BlockChain := ⟨none, [⟨[], "", 9, 1, c1Hash⟩], 1⟩

set_option maxRecDepth 40000 in
/-- Witness for `C1_amended` at the difficulty-1 chain created at time 9. -/
theorem C1_amended_witness :
    1 ≤ c1BC.difficulty ∧
    (recomputeHash ⟨[], "", 9, 1, c1Hash⟩ = (⟨[], "", 9, 1, c1Hash⟩ : Block).hash ∧
     strBeginsWith (⟨[], "", 9, 1, c1Hash⟩ : Block).hash (powTarget c1BC.difficulty) = true) :=
  ⟨by decide,
   C1_amended (Reachable.create 1 9 1 c1BC (by decide)) (by decide)
     ⟨[], "", 9, 1, c1Hash⟩ (by decide)⟩

/-- Witness for `C2_linkage` at a two-block difficulty-0 chain. -/
theorem C2_linkage_witness :
    (wBC2.chain.get ⟨1, by decide⟩).prevHash = (wBC2.chain.get ⟨0, by decide⟩).hash :=
  C2_linkage wBC2_reachable 0 (by decide)

/-- Transactions submitted in the capacity-overflow witness run. -/
def u1 : Transaction := ⟨"p", "q", ⟨"1"⟩⟩

def u2 : Transaction := ⟨"p", "q", ⟨"2"⟩⟩

def u3 : Transaction := ⟨"p", "q", ⟨"3"⟩⟩

def u4 : Transaction := ⟨"p", "q", ⟨"4"⟩⟩

def u5 : Transaction := ⟨"p", "q", ⟨"5"⟩⟩

def u6 : Transaction := ⟨"p", "q", ⟨"6"⟩⟩

/-- The states of the capacity-overflow witness run, difficulty 0. -/
def c3bc0 : BlockChain := ⟨none, [⟨[], "", 0, 0, ""⟩], 0⟩

def c3bc1 : BlockChain := ⟨some ⟨[u1], "", 0, 0, ""⟩, [⟨[], "", 0, 0, ""⟩], 0⟩

def c3bc2 : BlockChain := ⟨some ⟨[u1, u2], "", 0, 0, ""⟩, [⟨[], "", 0, 0, ""⟩], 0⟩

def c3bc3 : BlockChain := ⟨some ⟨[u1, u2, u3], "", 0, 0, ""⟩, [⟨[], "", 0, 0, ""⟩], 0⟩

def c3bc4 : BlockChain := ⟨some ⟨[u1, u2, u3, u4], "", 0, 0, ""⟩, [⟨[], "", 0, 0, ""⟩], 0⟩

def c3bc5 : BlockChain := ⟨some ⟨[u1, u2, u3, u4, u5], "", 0, 0, ""⟩, [⟨[], "", 0, 0, ""⟩], 0⟩

def c3bc6 : BlockChain :=
  ⟨some ⟨[u6], "", 0, 0, ""⟩, [⟨[], "", 0, 0, ""⟩, ⟨[u1, u2, u3, u4, u5], "", 0, 0, ""⟩], 0⟩

/-- Witness for `C3_capacity`: a concrete difficulty-0 run of six `AddTxn`
calls. -/
theorem C3_capacity_witness :
    c3bc6.chain.map Block.data = [[], [u1, u2, u3, u4, u5]] ∧
    c3bc6.current.map Block.data = some [u6] :=
  C3_capacity 0 0 0 c3bc0 u1 u2 u3 u4 u5 u6 0 0 0 0 0 0 0 0 0 0 0 0
    c3bc1 c3bc2 c3bc3 c3bc4 c3bc5 c3bc6
    (by decide) (by decide) (by decide) (by decide) (by decide) (by decide) (by decide)

/-- The hash found by mining the genesis block of timestamp 34 at
difficulty 1: the first candidate nonce, 1, succeeds. -/
def c4Hash : String := "0155c43e109fc91c9cab60a2029a47061beee4e014ed7ce3c91a13685cd1428f"

/-- The difficulty-1 chain created at time 34. -/
def c4BC : BlockChain := ⟨none, [⟨[], "", 34, 1, c4Hash⟩], 1⟩

set_option maxRecDepth 40000 in
/-- Witness for `C4_genesis` at the difficulty-1 chain created at time 34. -/
theorem C4_genesis_witness :
    c4BC.current = none ∧ ∃ g, c4BC.chain = [g] ∧ g.data = [] ∧ g.prevHash = "" ∧
      strBeginsWith g.hash (powTarget 1) = true :=
  C4_genesis 1 34 1 c4BC (by decide)

/-- An unsealed block with timestamp 26, and its difficulty-1 mining
result: the first candidate nonce, 1, succeeds. -/
def c5B : Block := ⟨[], "", 26, 0, ""⟩

def c5B' : Block :=
  ⟨[], "", 26, 1, "0ab4d4bd0d5fa9461e1cc85fe7884bd94878f6c7f6f6ff6b635a98a29cc1b984"⟩

set_option maxRecDepth 40000 in
/-- Witness for `C5_amended` at the timestamp-26 block, difficulty 1. -/
theorem C5_amended_witness :
    c5B.hash = "" ∧ 1 ≤ 1 ∧ mineFuel 1 1 c5B = some c5B' ∧
    (c5B.nonce < c5B'.nonce ∧
     c5B'.hash = mineDigest c5B c5B'.nonce ∧
     strBeginsWith c5B'.hash (powTarget 1) = true ∧
     ∀ n, c5B.nonce < n → n < c5B'.nonce →
       strBeginsWith (mineDigest c5B n) (powTarget 1) = false) :=
  ⟨rfl, by decide, by decide, C5_amended c5B c5B' 1 1 rfl (by decide) (by decide)⟩

/-- An unsealed block with timestamp 51, and its difficulty-1 mining
result: the first candidate nonce, 1, succeeds. -/
def c7B : Block := ⟨[], "", 51, 0, ""⟩

def c7B' : Block :=
  ⟨[], "", 51, 1, "0e9dc7906b30dd6d7895e6279746eb50518852b581b5856d9070f56192f0c386"⟩

set_option maxRecDepth 40000 in
/-- Witness for `C7_deterministic`: mining the timestamp-51 block twice,
with different fuel bounds, lands on the same nonce and hash. -/
theorem C7_deterministic_witness :
    mineFuel 1 1 c7B = some c7B' ∧ mineFuel 1 2 c7B = some c7B' ∧
    (c7B'.nonce = c7B'.nonce ∧ c7B'.hash = c7B'.hash) :=
  ⟨by decide, by decide,
   C7_deterministic c7B c7B c7B' c7B' 1 1 2 rfl rfl rfl rfl rfl rfl rfl
     (by decide) (by decide)⟩

/-- Witness for `C8_commit_noop` at the freshly created difficulty-0
chain, which has no open block. -/
theorem C8_commit_noop_witness :
    CommitBlock wBC0 0 = some wBC0 ∧
    (CommitBlock wBC0 0).bind (fun bc2 => CommitBlock bc2 0) = CommitBlock wBC0 0 :=
  C8_commit_noop wBC0 0 0 rfl

/-- Witness for `C9_sizes` at the difficulty-0 chain holding one open
transaction. -/
theorem C9_sizes_witness :
    (∀ c ∈ wBC1.current, 1 ≤ c.data.length ∧ c.data.length ≤ MAX_TXNS_PER_BLOCK) ∧
    ((0 = 0 → (wBC1.chain.get ⟨0, by decide⟩).data = []) ∧
     (0 ≠ 0 → 1 ≤ (wBC1.chain.get ⟨0, by decide⟩).data.length ∧
       (wBC1.chain.get ⟨0, by decide⟩).data.length ≤ MAX_TXNS_PER_BLOCK)) :=
  ⟨(C9_sizes wBC1_reachable).1, (C9_sizes wBC1_reachable).2 0 (by decide)⟩

/-- Witness for `C10_difficulty0` at a block with a nonzero nonce and a
nonempty field profile, plus a difficulty-0 creation at time 4. -/
theorem C10_difficulty0_witness :
    mineFuel 0 3 ⟨[], "x", 5, 7, ""⟩ = some ⟨[], "x", 5, 7, ""⟩ ∧
    CreateBlockChain 0 4 2 = some ⟨none, [⟨[], "", 4, 0, ""⟩], 0⟩ :=
  C10_difficulty0 ⟨[], "x", 5, 7, ""⟩ 3 4 2 rfl

end Toy
